import Mathlib

/-!
Verification of the WikiScrapper graph-construction pipeline
(`wiki_scrapper.py`, `scrapper.py`, `excavator.py`).

The embedding keeps the source's control flow: Python loops become
structural recursions (a `fuel` argument counts the remaining loop
iterations where Python freezes a `range`, and bounds the iterations of
`while` loops), Python lists become `List`, `set` membership tests become
guarded list insertion, `random.random()` becomes an explicit stream
`rng : Nat → ℚ` consumed left to right, and `random.sample` becomes an
explicit `sample` function argument.  Vertex identifiers (page titles)
are an arbitrary type `α` with decidable equality.
-/

namespace WikiScrapper

/-- Edge colors of the two-colored graph: red = same-language hyperlink,
blue = cross-language translation equivalence. -/
inductive Color where
  | red : Color
  | blue : Color
deriving DecidableEq

/-- The color toggle of `_invert_edge` (wiki_scrapper.py 263-275, excavator.py
30-42): `red` becomes `blue`, anything else becomes `red`. -/
def invertColor : Color → Color
  | Color.red => Color.blue
  | Color.blue => Color.red

variable {α : Type} [DecidableEq α]

/-- Edge identity of `nx.Graph`: edges are keyed by the unordered pair of
endpoints. -/
def sameEdge (e f : α × α) : Prop :=
  (e.1 = f.1 ∧ e.2 = f.2) ∨ (e.1 = f.2 ∧ e.2 = f.1)

instance sameEdgeDec (e f : α × α) : Decidable (sameEdge e f) :=
  inferInstanceAs (Decidable ((e.1 = f.1 ∧ e.2 = f.2) ∨ (e.1 = f.2 ∧ e.2 = f.1)))

lemma sameEdge_refl (e : α × α) : sameEdge e e := Or.inl ⟨rfl, rfl⟩

lemma sameEdge_symm {e f : α × α} (h : sameEdge e f) : sameEdge f e := by
  rcases h with ⟨h1, h2⟩ | ⟨h1, h2⟩
  · exact Or.inl ⟨h1.symm, h2.symm⟩
  · exact Or.inr ⟨h2.symm, h1.symm⟩

lemma sameEdge_trans {e f g : α × α} (h1 : sameEdge e f) (h2 : sameEdge f g) :
    sameEdge e g := by
  obtain ⟨e1, e2⟩ := e
  obtain ⟨f1, f2⟩ := f
  obtain ⟨g1, g2⟩ := g
  simp only [sameEdge] at h1 h2 ⊢
  rcases h1 with ⟨rfl, rfl⟩ | ⟨rfl, rfl⟩ <;> rcases h2 with ⟨rfl, rfl⟩ | ⟨rfl, rfl⟩ <;>
    simp

/-- The part of the `nx.Graph` state the perturbation pass (step 3 of
`build_graph`) observes and mutates: the node list and the association of
each (unordered) edge with its `color` attribute. -/
structure PGraph (α : Type) where
  nodes : List α
  edges : List ((α × α) × Color)
deriving DecidableEq

/-- `_invert_edge G edge` (wiki_scrapper.py 263-275): toggle the `color`
attribute of the stored edge matching `e`. -/
def invertIn (es : List ((α × α) × Color)) (e : α × α) : List ((α × α) × Color) :=
  es.map (fun x => if sameEdge x.1 e then (x.1, invertColor x.2) else x)

/-- `_remove_edge G edge` (wiki_scrapper.py 278-286): delete the stored edge
matching `e`. -/
def removeIn (es : List ((α × α) × Color)) (e : α × α) : List ((α × α) × Color) :=
  es.filter (fun x => decide (¬ sameEdge x.1 e))

/-- The perturbation loop body (wiki_scrapper.py 206-210, excavator.py
207-211): iterate over the snapshot `snap` (`list(G.edges)` taken before any
mutation); for the edge at snapshot position `i` the first `random.random()`
call is stream position `2*i` (tested against the inversion chance) and the
second is `2*i+1` (tested against the removal chance) — two draws are consumed
per edge, inversion first. -/
def perturbAux (pInv pRem : ℚ) (rng : Nat → ℚ) :
    List (α × α) → Nat → List ((α × α) × Color) → List ((α × α) × Color)
  | [], _, es => es
  | e :: snap, i, es =>
      let es1 := if rng (2 * i) < pInv then invertIn es e else es
      let es2 := if rng (2 * i + 1) < pRem then removeIn es1 e else es1
      perturbAux pInv pRem rng snap (i + 1) es2

/-- Step 3 of `build_graph` (wiki_scrapper.py 206-210):
`for edge in list(G.edges): ...` applied to the assembled graph.  Nodes are
never touched by this pass. -/
def perturb (pInv pRem : ℚ) (rng : Nat → ℚ) (g : PGraph α) : PGraph α :=
  { nodes := g.nodes
    edges := perturbAux pInv pRem rng (g.edges.map Prod.fst) 0 g.edges }

lemma perturbAux_zero_zero (rng : Nat → ℚ) (h : ∀ n, 0 ≤ rng n) :
    ∀ (snap : List (α × α)) (i : Nat) (es : List ((α × α) × Color)),
      perturbAux 0 0 rng snap i es = es := by
  intro snap
  induction snap with
  | nil => intro i es; rfl
  | cons e snap ih =>
      intro i es
      simp only [perturbAux, if_neg (not_lt.mpr (h (2 * i))),
        if_neg (not_lt.mpr (h (2 * i + 1)))]
      exact ih (i + 1) es

/-- C6: perturbation with both probabilities zero is the identity transform:
for every graph and every random stream with nonnegative draws (as produced by
`random.random()`), `Perturb(G, 0, 0, rng)` returns a graph with the same
vertex set, edge set and edge colors. -/
theorem perturb_zero_id (g : PGraph α) (rng : Nat → ℚ) (h : ∀ n, 0 ≤ rng n) :
    perturb 0 0 rng g = g := by
  unfold perturb
  rw [perturbAux_zero_zero rng h]

/-- Witness for C6 at a concrete graph and random stream. -/
theorem perturb_zero_id_witness :
    (∀ n, 0 ≤ (fun _ : Nat => (1 : ℚ) / 2) n) ∧
      perturb 0 0 (fun _ : Nat => (1 : ℚ) / 2)
          (PGraph.mk [0, 1, 2] [((0, 1), Color.red), ((1, 2), Color.blue)] :
            PGraph Nat) =
        PGraph.mk [0, 1, 2] [((0, 1), Color.red), ((1, 2), Color.blue)] :=
  ⟨fun _ => by norm_num,
    perturb_zero_id _ (fun _ : Nat => (1 : ℚ) / 2) (fun _ => by norm_num)⟩

lemma perturbAux_length_pRem_zero (pInv : ℚ) (rng : Nat → ℚ) (h : ∀ n, 0 ≤ rng n) :
    ∀ (snap : List (α × α)) (i : Nat) (es : List ((α × α) × Color)),
      (perturbAux pInv 0 rng snap i es).length = es.length := by
  intro snap
  induction snap with
  | nil => intro i es; rfl
  | cons e snap ih =>
      intro i es
      simp only [perturbAux, if_neg (not_lt.mpr (h (2 * i + 1)))]
      rw [ih (i + 1)]
      by_cases hc : rng (2 * i) < pInv
      · simp [hc, invertIn]
      · simp [hc]

lemma perturbAux_subset_pInv_zero (pRem : ℚ) (rng : Nat → ℚ) (h : ∀ n, 0 ≤ rng n) :
    ∀ (snap : List (α × α)) (i : Nat) (es : List ((α × α) × Color)),
      perturbAux 0 pRem rng snap i es ⊆ es := by
  intro snap
  induction snap with
  | nil => intro i es; exact fun x hx => hx
  | cons e snap ih =>
      intro i es
      simp only [perturbAux, if_neg (not_lt.mpr (h (2 * i)))]
      by_cases hc : rng (2 * i + 1) < pRem
      · simp only [if_pos hc]
        exact (ih (i + 1) (removeIn es e)).trans
          (fun x hx => List.mem_of_mem_filter hx)
      · simp only [if_neg hc]
        exact ih (i + 1) es

/-- C7: perturbation with removal probability zero never changes the number of
edges (inversion only toggles the color attribute), and perturbation with
inversion probability zero only removes edges — its edge set (with colors) is a
subset of the input's. -/
theorem perturb_count_monotone (g : PGraph α) (p : ℚ) (rng : Nat → ℚ)
    (h : ∀ n, 0 ≤ rng n) :
    (perturb p 0 rng g).edges.length = g.edges.length ∧
      (perturb 0 p rng g).edges ⊆ g.edges := by
  constructor
  · exact perturbAux_length_pRem_zero p rng h _ 0 g.edges
  · exact perturbAux_subset_pInv_zero p rng h _ 0 g.edges

/-- Witness for C7 at a concrete graph, probability and random stream. -/
theorem perturb_count_monotone_witness :
    (∀ n, 0 ≤ (fun _ : Nat => (1 : ℚ) / 3) n) ∧
      ((perturb (1 / 2) 0 (fun _ : Nat => (1 : ℚ) / 3)
            (PGraph.mk [0, 1, 2] [((0, 1), Color.red), ((1, 2), Color.blue)] :
              PGraph Nat)).edges.length =
          (PGraph.mk [0, 1, 2] [((0, 1), Color.red), ((1, 2), Color.blue)] :
              PGraph Nat).edges.length ∧
        (perturb 0 (1 / 2) (fun _ : Nat => (1 : ℚ) / 3)
            (PGraph.mk [0, 1, 2] [((0, 1), Color.red), ((1, 2), Color.blue)] :
              PGraph Nat)).edges ⊆
          (PGraph.mk [0, 1, 2] [((0, 1), Color.red), ((1, 2), Color.blue)] :
              PGraph Nat).edges) :=
  ⟨fun _ => by norm_num,
    perturb_count_monotone _ (1 / 2) (fun _ : Nat => (1 : ℚ) / 3)
      (fun _ => by norm_num)⟩

lemma perturbAux_congr (pInv pRem : ℚ) (rng1 rng2 : Nat → ℚ) :
    ∀ (snap : List (α × α)) (i : Nat) (es : List ((α × α) × Color)),
      (∀ n, 2 * i ≤ n → n < 2 * i + 2 * snap.length → rng1 n = rng2 n) →
      perturbAux pInv pRem rng1 snap i es = perturbAux pInv pRem rng2 snap i es := by
  intro snap
  induction snap with
  | nil => intro i es _; rfl
  | cons e snap ih =>
      intro i es h
      have h0 : rng1 (2 * i) = rng2 (2 * i) :=
        h (2 * i) (by omega) (by simp only [List.length_cons]; omega)
      have h1 : rng1 (2 * i + 1) = rng2 (2 * i + 1) :=
        h (2 * i + 1) (by omega) (by simp only [List.length_cons]; omega)
      simp only [perturbAux, h0, h1]
      apply ih
      intro n hn1 hn2
      apply h n (by omega)
      simp only [List.length_cons]
      omega

/-- C8: perturbation output is a function of the pre-perturbation graph and the
random stream alone, and only the first `2 * |E|` draws of the stream are read:
two runs on the same graph whose streams agree on those positions (in
particular two runs with the same seed) produce identical graphs. -/
theorem perturb_deterministic (g : PGraph α) (pInv pRem : ℚ)
    (rng1 rng2 : Nat → ℚ)
    (h : ∀ n, n < 2 * g.edges.length → rng1 n = rng2 n) :
    perturb pInv pRem rng1 g = perturb pInv pRem rng2 g := by
  unfold perturb
  congr 1
  apply perturbAux_congr
  intro n _ hn2
  apply h
  simpa using hn2

/-- Witness for C8: two concrete streams that agree on the four consumed draws
but differ later give identical perturbed graphs. -/
theorem perturb_deterministic_witness :
    (∀ n, n < 2 * (PGraph.mk [0, 1, 2]
          [((0, 1), Color.red), ((1, 2), Color.blue)] : PGraph Nat).edges.length →
        (fun k : Nat => if k < 4 then (1 : ℚ) else 0) n =
          (fun k : Nat => if k < 4 then (1 : ℚ) else 2) n) ∧
      perturb (1 / 3) (1 / 3) (fun k : Nat => if k < 4 then (1 : ℚ) else 0)
          (PGraph.mk [0, 1, 2] [((0, 1), Color.red), ((1, 2), Color.blue)] :
            PGraph Nat) =
        perturb (1 / 3) (1 / 3) (fun k : Nat => if k < 4 then (1 : ℚ) else 2)
          (PGraph.mk [0, 1, 2] [((0, 1), Color.red), ((1, 2), Color.blue)] :
            PGraph Nat) :=
  ⟨fun n hn => by
      have h4 : n < 4 := by simpa using hn
      simp [h4],
    perturb_deterministic _ (1 / 3) (1 / 3) _ _ (fun n hn => by
      have h4 : n < 4 := by simpa using hn
      simp [h4])⟩

lemma invertIn_mem_match {es : List ((α × α) × Color)} {e : α × α} {c : Color}
    (h : (e, c) ∈ es) : (e, invertColor c) ∈ invertIn es e := by
  have hm := List.mem_map_of_mem
    (fun x : (α × α) × Color => if sameEdge x.1 e then (x.1, invertColor x.2) else x) h
  simpa [invertIn, sameEdge_refl] using hm

lemma invertIn_mem_other {es : List ((α × α) × Color)} {e f : α × α} {c : Color}
    (hne : ¬ sameEdge e f) (h : (e, c) ∈ es) : (e, c) ∈ invertIn es f := by
  have hm := List.mem_map_of_mem
    (fun x : (α × α) × Color => if sameEdge x.1 f then (x.1, invertColor x.2) else x) h
  simpa [invertIn, hne] using hm

lemma removeIn_mem_other {es : List ((α × α) × Color)} {e f : α × α} {c : Color}
    (hne : ¬ sameEdge e f) (h : (e, c) ∈ es) : (e, c) ∈ removeIn es f := by
  refine List.mem_filter.mpr ⟨h, ?_⟩
  simpa using hne

lemma removeIn_no_match {es : List ((α × α) × Color)} {e : α × α} :
    ∀ x ∈ removeIn es e, ¬ sameEdge x.1 e := by
  intro x hx
  have := (List.mem_filter.mp hx).2
  simpa using this

lemma invertIn_keys {es : List ((α × α) × Color)} {f : α × α}
    {x : (α × α) × Color} (hx : x ∈ invertIn es f) : ∃ y ∈ es, x.1 = y.1 := by
  obtain ⟨y, hy, hxy⟩ := List.mem_map.mp hx
  refine ⟨y, hy, ?_⟩
  by_cases hc : sameEdge y.1 f <;> simp [hc] at hxy <;> rw [← hxy]

lemma perturbAux_no_match (pInv pRem : ℚ) (rng : Nat → ℚ) (e : α × α) :
    ∀ (snap : List (α × α)) (i : Nat) (es : List ((α × α) × Color)),
      (∀ x ∈ es, ¬ sameEdge x.1 e) →
      ∀ x ∈ perturbAux pInv pRem rng snap i es, ¬ sameEdge x.1 e := by
  intro snap
  induction snap with
  | nil => intro i es h; exact h
  | cons y snap ih =>
      intro i es h
      simp only [perturbAux]
      apply ih
      have h1 : ∀ x ∈ (if rng (2 * i) < pInv then invertIn es y else es),
          ¬ sameEdge x.1 e := by
        split
        · intro x hx
          obtain ⟨z, hz, hxz⟩ := invertIn_keys hx
          rw [hxz]
          exact h z hz
        · exact h
      split
      · intro x hx
        exact h1 x (List.mem_of_mem_filter hx)
      · exact h1

lemma perturbAux_preserve (pInv pRem : ℚ) (rng : Nat → ℚ) (e : α × α) (c : Color) :
    ∀ (snap : List (α × α)) (i : Nat) (es : List ((α × α) × Color)),
      (∀ y ∈ snap, ¬ sameEdge y e) → (e, c) ∈ es →
      (e, c) ∈ perturbAux pInv pRem rng snap i es := by
  intro snap
  induction snap with
  | nil => intro i es _ h; exact h
  | cons y snap ih =>
      intro i es hs h
      have hye : ¬ sameEdge e y := fun hc => hs y (List.mem_cons_self y snap) (sameEdge_symm hc)
      simp only [perturbAux]
      apply ih _ _ (fun z hz => hs z (List.mem_cons_of_mem y hz))
      have h1 : (e, c) ∈ (if rng (2 * i) < pInv then invertIn es y else es) := by
        split
        · exact invertIn_mem_other hye h
        · exact h
      split
      · exact removeIn_mem_other hye h1
      · exact h1

lemma perturbAux_spec (pInv pRem : ℚ) (rng : Nat → ℚ) (e : α × α) :
    ∀ (snap : List (α × α)) (k i : Nat) (es : List ((α × α) × Color)) (c : Color),
      snap.get? k = some e →
      (∀ m x, m ≠ k → snap.get? m = some x → ¬ sameEdge x e) →
      (e, c) ∈ es →
      ((rng (2 * (i + k) + 1) < pRem →
          ∀ x ∈ perturbAux pInv pRem rng snap i es, ¬ sameEdge x.1 e) ∧
        (¬ rng (2 * (i + k) + 1) < pRem →
          (e, if rng (2 * (i + k)) < pInv then invertColor c else c) ∈
            perturbAux pInv pRem rng snap i es)) := by
  intro snap
  induction snap with
  | nil => intro k i es c hk; simp at hk
  | cons y snap ih =>
      intro k i es c hk hother hmem
      cases k with
      | zero =>
          have hy : e = y := by
            have : y = e := by simpa using hk
            exact this.symm
          subst hy
          have htail : ∀ z ∈ snap, ¬ sameEdge z e := by
            intro z hz
            obtain ⟨m, hm⟩ := List.mem_iff_get?.mp hz
            exact hother (m + 1) z (by omega) (by simpa using hm)
          simp only [Nat.add_zero, perturbAux]
          have hmem1 : (e, if rng (2 * i) < pInv then invertColor c else c) ∈
              (if rng (2 * i) < pInv then invertIn es e else es) := by
            split
            · exact invertIn_mem_match hmem
            · exact hmem
          by_cases hrem : rng (2 * i + 1) < pRem
          · rw [if_pos hrem]
            constructor
            · intro _
              exact perturbAux_no_match pInv pRem rng e snap (i + 1) _
                (removeIn_no_match)
            · intro hcon; exact absurd hrem hcon
          · rw [if_neg hrem]
            constructor
            · intro hcon; exact absurd hcon hrem
            · intro _
              exact perturbAux_preserve pInv pRem rng e _ snap (i + 1) _ htail hmem1
      | succ m =>
          have hy_ne : ¬ sameEdge y e := hother 0 y (by omega) (by simp)
          have hey : ¬ sameEdge e y := fun hc => hy_ne (sameEdge_symm hc)
          simp only [perturbAux]
          have h1 : (e, c) ∈ (if rng (2 * i) < pInv then invertIn es y else es) := by
            split
            · exact invertIn_mem_other hey hmem
            · exact hmem
          have h2 : (e, c) ∈ (if rng (2 * i + 1) < pRem
              then removeIn (if rng (2 * i) < pInv then invertIn es y else es) y
              else (if rng (2 * i) < pInv then invertIn es y else es)) := by
            split
            · exact removeIn_mem_other hey h1
            · exact h1
          have hres := ih m (i + 1) _ c (by simpa using hk)
            (fun m' x hne hm' => hother (m' + 1) x (by omega) (by simpa using hm')) h2
          have harith : i + 1 + m = i + (m + 1) := by omega
          rw [harith] at hres
          exact hres

/-- No two stored edges of a graph alias the same unordered endpoint pair
(the invariant `nx.Graph` maintains for its edge dictionary). -/
def KeysDistinct (es : List ((α × α) × Color)) : Prop :=
  es.Pairwise fun x y => ¬ sameEdge x.1 y.1

instance keysDistinctDec (es : List ((α × α) × Color)) : Decidable (KeysDistinct es) :=
  inferInstanceAs (Decidable (es.Pairwise _))

/-- C5: per-edge behavior of the perturbation pass over the stable snapshot
`list(G.edges)`.  For the edge stored at snapshot position `i`: whether it is
removed is decided solely by the Bernoulli draw at stream position `2*i+1`,
and when it survives, its final color is its original color with the inversion
(decided solely by the independent draw at position `2*i`) applied first.  The
two decisions are separate draws, so an edge can be inverted and still removed
in the same pass, and only edges of the pre-pass snapshot are ever iterated
over. -/
theorem perturb_per_edge (g : PGraph α) (pInv pRem : ℚ) (rng : Nat → ℚ)
    (i : Nat) (e : α × α) (c : Color) (hkd : KeysDistinct g.edges)
    (hi : g.edges.get? i = some (e, c)) :
    (rng (2 * i + 1) < pRem →
        ∀ x ∈ (perturb pInv pRem rng g).edges, ¬ sameEdge x.1 e) ∧
      (¬ rng (2 * i + 1) < pRem →
        (e, if rng (2 * i) < pInv then invertColor c else c) ∈
          (perturb pInv pRem rng g).edges) := by
  have hsnap : (g.edges.map Prod.fst).get? i = some e := by
    rw [List.get?_map, hi]; rfl
  have hother : ∀ m x, m ≠ i → (g.edges.map Prod.fst).get? m = some x →
      ¬ sameEdge x e := by
    intro m x hmne hmx
    rw [List.get?_map] at hmx
    obtain ⟨y, hy, rfl⟩ := Option.map_eq_some'.mp hmx
    obtain ⟨hmlen, hget⟩ := List.get?_eq_some.mp hy
    obtain ⟨hilen, hgeti⟩ := List.get?_eq_some.mp hi
    rcases Nat.lt_or_ge m i with hlt | hge
    · have hp := List.pairwise_iff_get.mp hkd ⟨m, hmlen⟩ ⟨i, hilen⟩ hlt
      rw [hget, hgeti] at hp
      exact hp
    · have hlt : i < m := by omega
      have hp := List.pairwise_iff_get.mp hkd ⟨i, hilen⟩ ⟨m, hmlen⟩ hlt
      rw [hget, hgeti] at hp
      exact fun hcon => hp (sameEdge_symm hcon)
  have hmem : (e, c) ∈ g.edges := List.get?_mem hi
  have hres := perturbAux_spec pInv pRem rng e (g.edges.map Prod.fst) i 0
    g.edges c hsnap hother hmem
  simpa [perturb] using hres

/-- Witness for C5 at a concrete graph, probabilities and random stream: the
first edge is inverted (draw 0 reads 0 < 1) and kept (draw 1 reads 1, not
below 1). -/
theorem perturb_per_edge_witness :
    (KeysDistinct ([((0, 1), Color.red), ((1, 2), Color.blue)] :
          List ((Nat × Nat) × Color)) ∧
        (PGraph.mk [0, 1, 2] [((0, 1), Color.red), ((1, 2), Color.blue)] :
            PGraph Nat).edges.get? 0 = some ((0, 1), Color.red)) ∧
      (((fun n : Nat => if n = 0 then (0 : ℚ) else 1) (2 * 0 + 1) < 1 →
          ∀ x ∈ (perturb 1 1 (fun n : Nat => if n = 0 then (0 : ℚ) else 1)
              (PGraph.mk [0, 1, 2]
                [((0, 1), Color.red), ((1, 2), Color.blue)])).edges,
            ¬ sameEdge x.1 (0, 1)) ∧
        (¬ (fun n : Nat => if n = 0 then (0 : ℚ) else 1) (2 * 0 + 1) < 1 →
          ((0, 1), if (fun n : Nat => if n = 0 then (0 : ℚ) else 1) (2 * 0) < 1
              then invertColor Color.red else Color.red) ∈
            (perturb 1 1 (fun n : Nat => if n = 0 then (0 : ℚ) else 1)
              (PGraph.mk [0, 1, 2]
                [((0, 1), Color.red), ((1, 2), Color.blue)])).edges)) :=
  ⟨⟨by decide, by decide⟩,
    perturb_per_edge
      (PGraph.mk [0, 1, 2] [((0, 1), Color.red), ((1, 2), Color.blue)] :
        PGraph Nat)
      1 1 (fun n : Nat => if n = 0 then (0 : ℚ) else 1) 0 (0, 1) Color.red
      (by decide) (by decide)⟩

/-- One comparison of the clique loop body (wiki_scrapper.py 173-185): given
the outer pair `(a, b)` and the inner pair `(c, d)`, the edges the four
`if ... continue` branches append (at most one per comparison). -/
def matchStep (a b c d : α) : List (α × α) :=
  if b = c then [(a, d)]
  else if a = d then [(c, b)]
  else if a = c then [(b, d)]
  else if b = d then [(a, c)]
  else []

/-- Inner loop `for j in range(i + 1, len(blue_edges))` (wiki_scrapper.py
172-185): `j` starts at the second argument and `n` counts the remaining
values of `j` — the bound is frozen when the `range` is created, so edges
appended during this inner loop do not extend it. -/
def cliqueInner (a b : α) : List (α × α) → Nat → Nat → List (α × α)
  | l, _, 0 => l
  | l, j, n + 1 =>
      match l.get? j with
      | none => l
      | some (c, d) => cliqueInner a b (l ++ matchStep a b c d) (j + 1) n

/-- Outer loop `for i in range(len(blue_edges))` (wiki_scrapper.py 170-185):
`n` counts the remaining values of `i`; the outer bound is frozen at the
original list length, while each inner `range` reads the length current when
it starts. -/
def cliqueOuter : List (α × α) → Nat → Nat → List (α × α)
  | l, _, 0 => l
  | l, i, n + 1 =>
      match l.get? i with
      | none => l
      | some (a, b) =>
          cliqueOuter (cliqueInner a b l (i + 1) (l.length - (i + 1))) (i + 1) n

/-- The pairwise-expansion pass `# make the blue edges into cliques`
(wiki_scrapper.py 169-185). -/
def buildCliques (l : List (α × α)) : List (α × α) := cliqueOuter l 0 l.length

/-- The `# remove self-links` loop (wiki_scrapper.py 187-190): Python's `for`
keeps an internal read position that is not adjusted when `list.remove`
shifts the list, so the position `k` advances by one even after a removal;
the fuel `n` counts loop steps and the initial length is enough, because
`length - k` shrinks at every step. -/
def selfRemoveAux : List (α × α) → Nat → Nat → List (α × α)
  | l, _, 0 => l
  | l, k, n + 1 =>
      match l.get? k with
      | none => l
      | some e =>
          if e.1 = e.2 then selfRemoveAux (l.erase e) (k + 1) n
          else selfRemoveAux l (k + 1) n

def removeSelfLoops (l : List (α × α)) : List (α × α) := selfRemoveAux l 0 l.length

/-- The whole clique-building stage of `build_graph`: pairwise expansion of the
translation pairs (wiki_scrapper.py 170-185) followed by the self-link removal
loop (wiki_scrapper.py 187-190). -/
def cliqueStage (l : List (α × α)) : List (α × α) := removeSelfLoops (buildCliques l)

/-- `grows l L` holds when `L` is `l` with some edges appended at the end, the
only way the clique loops ever change the list. -/
def grows (l L : List (α × α)) : Prop := ∃ t, L = l ++ t

lemma grows_append (l t : List (α × α)) : grows l (l ++ t) := ⟨t, rfl⟩

lemma grows_trans {l m L : List (α × α)} (h1 : grows l m) (h2 : grows m L) :
    grows l L := by
  obtain ⟨t1, rfl⟩ := h1
  obtain ⟨t2, rfl⟩ := h2
  exact ⟨t1 ++ t2, by simp⟩

lemma get?_of_grows {l L : List (α × α)} (h : grows l L) {m : Nat}
    (hm : m < l.length) : L.get? m = l.get? m := by
  obtain ⟨t, rfl⟩ := h
  exact List.get?_append hm

lemma mem_cliqueInner (a b : α) (p : α × α) :
    ∀ (n : Nat) (l : List (α × α)) (j : Nat), p ∈ l → p ∈ cliqueInner a b l j n := by
  intro n
  induction n with
  | zero => intro l j h; exact h
  | succ n ih =>
      intro l j h
      cases hg : l.get? j with
      | none => simp only [cliqueInner, hg]; exact h
      | some cd =>
          obtain ⟨c, d⟩ := cd
          simp only [cliqueInner, hg]
          exact ih _ _ (List.mem_append_left _ h)

lemma grows_cliqueInner (a b : α) :
    ∀ (n : Nat) (l : List (α × α)) (j : Nat), grows l (cliqueInner a b l j n) := by
  intro n
  induction n with
  | zero => intro l j; exact ⟨[], by simp [cliqueInner]⟩
  | succ n ih =>
      intro l j
      cases hg : l.get? j with
      | none => simp only [cliqueInner, hg]; exact ⟨[], by simp⟩
      | some cd =>
          obtain ⟨c, d⟩ := cd
          simp only [cliqueInner, hg]
          exact grows_trans (grows_append l (matchStep a b c d)) (ih _ _)

lemma cliqueInner_hit (a b c d : α) (p : α × α) (hp : p ∈ matchStep a b c d) :
    ∀ (n : Nat) (l : List (α × α)) (j0 j : Nat), j0 ≤ j → j < j0 + n →
      l.get? j = some (c, d) → p ∈ cliqueInner a b l j0 n := by
  intro n
  induction n with
  | zero => intro l j0 j h1 h2 _; omega
  | succ n ih =>
      intro l j0 j h1 h2 hj
      obtain ⟨hjlen, -⟩ := List.get?_eq_some.mp hj
      rcases eq_or_lt_of_le h1 with rfl | hlt
      · simp only [cliqueInner, hj]
        exact mem_cliqueInner a b p n _ _ (List.mem_append_right _ hp)
      · cases hg : l.get? j0 with
        | none =>
            have := List.get?_eq_none.mp hg
            omega
        | some ab0 =>
            obtain ⟨a0, b0⟩ := ab0
            simp only [cliqueInner, hg]
            apply ih _ (j0 + 1) j hlt (by omega)
            rw [List.get?_append hjlen]
            exact hj

lemma mem_cliqueOuter (p : α × α) :
    ∀ (n : Nat) (l : List (α × α)) (i : Nat), p ∈ l → p ∈ cliqueOuter l i n := by
  intro n
  induction n with
  | zero => intro l i h; exact h
  | succ n ih =>
      intro l i h
      cases hg : l.get? i with
      | none => simp only [cliqueOuter, hg]; exact h
      | some ab =>
          obtain ⟨a, b⟩ := ab
          simp only [cliqueOuter, hg]
          exact ih _ _ (mem_cliqueInner a b p _ _ _ h)

lemma cliqueOuter_hit (a b c d : α) (p : α × α) (hp : p ∈ matchStep a b c d) :
    ∀ (n : Nat) (l : List (α × α)) (i0 i j : Nat), i0 ≤ i → i < i0 + n → i < j →
      l.get? i = some (a, b) → l.get? j = some (c, d) →
      p ∈ cliqueOuter l i0 n := by
  intro n
  induction n with
  | zero => intro l i0 i j h1 h2 _ _ _; omega
  | succ n ih =>
      intro l i0 i j h1 h2 hij hi hj
      obtain ⟨hjlen, -⟩ := List.get?_eq_some.mp hj
      obtain ⟨hilen, -⟩ := List.get?_eq_some.mp hi
      rcases eq_or_lt_of_le h1 with rfl | hlt
      · simp only [cliqueOuter, hi]
        apply mem_cliqueOuter p n _ (i0 + 1)
        exact cliqueInner_hit a b c d p hp (l.length - (i0 + 1)) l (i0 + 1) j
          (by omega) (by omega) hj
      · cases hg : l.get? i0 with
        | none =>
            have := List.get?_eq_none.mp hg
            omega
        | some ab0 =>
            obtain ⟨a0, b0⟩ := ab0
            simp only [cliqueOuter, hg]
            have hgr : grows l (cliqueInner a0 b0 l (i0 + 1) (l.length - (i0 + 1))) :=
              grows_cliqueInner a0 b0 _ l (i0 + 1)
            apply ih _ (i0 + 1) i j hlt (by omega) hij
            · rw [get?_of_grows hgr hilen]; exact hi
            · rw [get?_of_grows hgr hjlen]; exact hj

lemma mem_selfRemoveAux (p : α × α) (hp : p.1 ≠ p.2) :
    ∀ (n : Nat) (l : List (α × α)) (k : Nat), p ∈ l → p ∈ selfRemoveAux l k n := by
  intro n
  induction n with
  | zero => intro l k h; exact h
  | succ n ih =>
      intro l k h
      cases hg : l.get? k with
      | none => simp only [selfRemoveAux, hg]; exact h
      | some e =>
          by_cases he : e.1 = e.2
          · simp only [selfRemoveAux, hg, if_pos he]
            apply ih
            have hne : p ≠ e := by
              intro hcon
              rw [hcon] at hp
              exact hp he
            exact (List.mem_erase_of_ne hne).mpr h
          · simp only [selfRemoveAux, hg, if_neg he]
            exact ih _ _ h

/-- C1: one-step transitivity of the clique-building stage.  If `(A, B)` and
`(B, C)` are among the produced translation pairs and `A ≠ C`, then after the
pairwise-expansion loop and the self-link removal loop the blue edge `(A, C)`
is present in the resulting blue-edge list. -/
theorem clique_transitive (ps : List (α × α)) (A B C : α)
    (hAB : (A, B) ∈ ps) (hBC : (B, C) ∈ ps) (hAC : A ≠ C) :
    (A, C) ∈ cliqueStage ps := by
  obtain ⟨i, hi⟩ := List.mem_iff_get?.mp hAB
  obtain ⟨j, hj⟩ := List.mem_iff_get?.mp hBC
  obtain ⟨hilen, -⟩ := List.get?_eq_some.mp hi
  obtain ⟨hjlen, -⟩ := List.get?_eq_some.mp hj
  have hne : i ≠ j := by
    intro hcon
    rw [hcon, hj] at hi
    have h2 := Option.some.inj hi
    have hBA : B = A := congrArg Prod.fst h2
    have hCB : C = B := congrArg Prod.snd h2
    exact hAC (hBA.symm.trans hCB.symm)
  have key : (A, C) ∈ buildCliques ps := by
    rcases hne.lt_or_lt with h | h
    · exact cliqueOuter_hit A B B C (A, C) (by simp [matchStep]) ps.length ps 0 i j
        (Nat.zero_le _) (by omega) h hi hj
    · have hCA : ¬ (C = A) := fun hcon => hAC hcon.symm
      exact cliqueOuter_hit B C A B (A, C) (by simp [matchStep, hCA]) ps.length ps 0 j i
        (Nat.zero_le _) (by omega) h hj hi
  simp only [cliqueStage, removeSelfLoops]
  exact mem_selfRemoveAux (A, C) hAC _ _ _ key

/-- Witness for C1: the spec's own scenario — translation pairs `(1, 2)` and
`(2, 3)` yield the blue edge `(1, 3)` after the clique stage. -/
theorem clique_transitive_witness :
    ((1, 2) ∈ ([(1, 2), (2, 3)] : List (Nat × Nat)) ∧
        (2, 3) ∈ ([(1, 2), (2, 3)] : List (Nat × Nat)) ∧ (1 : Nat) ≠ 3) ∧
      (1, 3) ∈ cliqueStage ([(1, 2), (2, 3)] : List (Nat × Nat)) :=
  ⟨by decide, clique_transitive [(1, 2), (2, 3)] 1 2 3 (by decide) (by decide)
    (by decide)⟩

/-- `G.add_edge(u, v, color=c)` of `nx.Graph`: set-semantics insertion keyed by
the unordered endpoint pair — inserting an already-present edge only overwrites
its `color` attribute, otherwise the edge is appended. -/
def insertEdge : List ((α × α) × Color) → α → α → Color → List ((α × α) × Color)
  | [], u, v, c => [((u, v), c)]
  | x :: es, u, v, c =>
      if sameEdge x.1 (u, v) then (x.1, c) :: es
      else x :: insertEdge es u v c

/-- `G.add_edges_from(l, color=c)`: insert every pair of `l` with color `c`. -/
def insertEdges (es : List ((α × α) × Color)) (l : List (α × α)) (c : Color) :
    List ((α × α) × Color) :=
  l.foldl (fun es e => insertEdge es e.1 e.2 c) es

/-- Edge insertion order of `build_graph` (wiki_scrapper.py 192-194 and
scrapper.py 136-140): red edges first, then blue edges. -/
def assembleEdges (red blue : List (α × α)) : List ((α × α) × Color) :=
  insertEdges (insertEdges [] red Color.red) blue Color.blue

/-- Edge insertion order of `create_sample_graph` (excavator.py 197-198):
blue (translation) edges first, then red edges. -/
def assembleEdgesExcavator (blue red : List (α × α)) : List ((α × α) × Color) :=
  insertEdges (insertEdges [] blue Color.blue) red Color.red

/-- The recorded color attribute `G[u][v]['color']` of the (unordered) edge
`(u, v)`, `none` when the edge is absent. -/
def edgeColor (es : List ((α × α) × Color)) (u v : α) : Option Color :=
  (es.find? (fun x => decide (sameEdge x.1 (u, v)))).map Prod.snd

lemma edgeColor_cons_pos {x : (α × α) × Color} {es : List ((α × α) × Color)}
    {u v : α} (h : sameEdge x.1 (u, v)) : edgeColor (x :: es) u v = some x.2 := by
  simp [edgeColor, List.find?_cons_of_pos, h]

lemma edgeColor_cons_neg {x : (α × α) × Color} {es : List ((α × α) × Color)}
    {u v : α} (h : ¬ sameEdge x.1 (u, v)) :
    edgeColor (x :: es) u v = edgeColor es u v := by
  simp [edgeColor, List.find?_cons_of_neg, h]

lemma edgeColor_insertEdge_match {es : List ((α × α) × Color)} {u' v' u v : α}
    {c : Color} (h : sameEdge (u', v') (u, v)) :
    edgeColor (insertEdge es u' v' c) u v = some c := by
  induction es with
  | nil => exact edgeColor_cons_pos h
  | cons x es ih =>
      by_cases hx : sameEdge x.1 (u', v')
      · have hx2 : sameEdge x.1 (u, v) := sameEdge_trans hx h
        simp only [insertEdge, if_pos hx]
        exact edgeColor_cons_pos hx2
      · have hx2 : ¬ sameEdge x.1 (u, v) := fun hc =>
          hx (sameEdge_trans hc (sameEdge_symm h))
        simp only [insertEdge, if_neg hx]
        rw [edgeColor_cons_neg hx2]
        exact ih

lemma edgeColor_insertEdge_other {es : List ((α × α) × Color)} {u' v' u v : α}
    {c : Color} (h : ¬ sameEdge (u', v') (u, v)) :
    edgeColor (insertEdge es u' v' c) u v = edgeColor es u v := by
  induction es with
  | nil => exact edgeColor_cons_neg h
  | cons x es ih =>
      by_cases hx : sameEdge x.1 (u', v')
      · have hx2 : ¬ sameEdge x.1 (u, v) := fun hc =>
          h (sameEdge_trans (sameEdge_symm hx) hc)
        simp only [insertEdge, if_pos hx]
        have h1 : edgeColor ((x.1, c) :: es) u v = edgeColor es u v :=
          edgeColor_cons_neg hx2
        have h2 : edgeColor (x :: es) u v = edgeColor es u v :=
          edgeColor_cons_neg hx2
        rw [h1, h2]
      · simp only [insertEdge, if_neg hx]
        by_cases hm : sameEdge x.1 (u, v)
        · rw [edgeColor_cons_pos hm, edgeColor_cons_pos hm]
        · rw [edgeColor_cons_neg hm, edgeColor_cons_neg hm]
          exact ih

lemma edgeColor_insertEdges_stable {u v : α} {c : Color} :
    ∀ (l : List (α × α)) (es : List ((α × α) × Color)),
      edgeColor es u v = some c → edgeColor (insertEdges es l c) u v = some c := by
  intro l
  induction l with
  | nil => intro es h; exact h
  | cons e l ih =>
      intro es h
      refine ih (insertEdge es e.1 e.2 c) ?_
      by_cases he : sameEdge (e.1, e.2) (u, v)
      · exact edgeColor_insertEdge_match he
      · rw [edgeColor_insertEdge_other he]; exact h

lemma edgeColor_insertEdges_matched {u v : α} {c : Color} :
    ∀ (l : List (α × α)), (∃ e ∈ l, sameEdge e (u, v)) →
      ∀ es, edgeColor (insertEdges es l c) u v = some c := by
  intro l
  induction l with
  | nil =>
      intro h
      obtain ⟨e, he, -⟩ := h
      exact absurd he (List.not_mem_nil e)
  | cons e l ih =>
      intro h es
      obtain ⟨f, hf, hfe⟩ := h
      rcases List.mem_cons.mp hf with h1 | h1
      · subst h1
        refine edgeColor_insertEdges_stable l _ ?_
        exact edgeColor_insertEdge_match hfe
      · exact ih ⟨f, h1, hfe⟩ _

/-- C4 (amended): in `wiki_scrapper.build_graph` and `scrapper.build_graph`
red edges are inserted before blue, so whenever the same unordered vertex pair
occurs (in either orientation) both among the link edges and among the
translation edges, the edge ends up recorded blue; in
`excavator.create_sample_graph` the insertion order is reversed (blue first,
red second), so the same unordered pair ends up recorded red. -/
theorem assemble_color_precedence (red blue : List (α × α)) (u v : α)
    (hr : ∃ e ∈ red, sameEdge e (u, v)) (hb : ∃ e ∈ blue, sameEdge e (u, v)) :
    edgeColor (assembleEdges red blue) u v = some Color.blue ∧
      edgeColor (assembleEdgesExcavator blue red) u v = some Color.red :=
  ⟨edgeColor_insertEdges_matched blue hb _, edgeColor_insertEdges_matched red hr _⟩

/-- Counterexample for C4 as stated: in `create_sample_graph` (excavator.py
197-198) blue edges are inserted before red ones, so a pair present in both
lists is finally recorded red, not blue. -/
theorem assemble_color_excavator_cex :
    edgeColor (assembleEdgesExcavator [((0 : Nat), 1)] [(0, 1)]) 0 1 ≠
      some Color.blue := by decide

/-- Witness for the amended C4 at concrete edge lists, with the shared pair in
mixed orientation: `(0, 1)` among the red edges, `(1, 0)` among the blue. -/
theorem assemble_color_precedence_witness :
    ((∃ e ∈ ([(0, 1), (1, 2)] : List (Nat × Nat)), sameEdge e (0, 1)) ∧
        (∃ e ∈ ([(1, 0)] : List (Nat × Nat)), sameEdge e (0, 1))) ∧
      (edgeColor (assembleEdges [(0, 1), (1, 2)] [(1, 0)]) 0 1 =
          some Color.blue ∧
        edgeColor (assembleEdgesExcavator [(1, 0)] [(0, 1), (1, 2)]) 0 1 =
          some Color.red) :=
  ⟨⟨by decide, by decide⟩,
    assemble_color_precedence [(0, 1), (1, 2)] [(1, 0)] 0 1 (by decide)
      (by decide)⟩

/-- C3 (code bug): the self-link removal loop (wiki_scrapper.py 187-190)
mutates `blue_edges` while iterating over it, so with the translation pairs
`[(0,0), (1,1)]` — two vertices whose cross-language translations carry the
same title, each producing a self-pair at wiki_scrapper.py line 143 — the
second self-pair is skipped and survives into the assembled graph as a
self-loop, contradicting the no-self-loop invariant. -/
theorem assembly_self_loop_bug :
    ∃ x ∈ assembleEdges ([] : List (Nat × Nat)) (cliqueStage [(0, 0), (1, 1)]),
      x.1.1 = x.1.2 := by decide

/-- Result of a completed per-language BFS crawl of `build_graph`
(wiki_scrapper.py 65-87): the visited vertex set (as a duplicate-free list),
the recorded red edges, and the sequence of frontier expansions. -/
structure BfsResult (α : Type) where
  vertices : List α
  edges : List (α × α)
  expanded : List α
deriving DecidableEq

/-- Inner link loop of the per-language BFS (wiki_scrapper.py 80-85):
`while len(vertices) < max and link_titles:` pop the next link; a link not yet
in the vertex set is added and enqueued; the red edge `(subject, link)` is
recorded either way. -/
def wikiInner (maxV : Nat) (subject : α) :
    List α → List α → List α → List (α × α) → List α × List α × List (α × α)
  | [], V, Q, E => (V, Q, E)
  | l :: links, V, Q, E =>
      if V.length < maxV then
        if l ∈ V then wikiInner maxV subject links V Q (E ++ [(subject, l)])
        else wikiInner maxV subject links (V ++ [l]) (Q ++ [l]) (E ++ [(subject, l)])
      else (V, Q, E)

/-- Outer BFS loop of `build_graph` (wiki_scrapper.py 65-87):
`while queue and len(vertices) < max:` dequeue a subject, add it to the vertex
set if new, fetch its links truncated to `max_bfs_links`, and run the inner
loop.  `fuel` bounds the number of expansions; `none` means the loop had not
finished within `fuel` expansions. -/
def wikiRun (linkF : α → List α) (maxV maxLinks : Nat) :
    Nat → List α → List α → List (α × α) → List α → Option (BfsResult α)
  | 0, Q, V, E, X =>
      if Q = [] ∨ maxV ≤ V.length then some ⟨V, E, X⟩ else none
  | fuel + 1, Q, V, E, X =>
      match Q with
      | [] => some ⟨V, E, X⟩
      | subject :: Qr =>
          if maxV ≤ V.length then some ⟨V, E, X⟩
          else
            let V1 := if subject ∈ V then V else V ++ [subject]
            let r := wikiInner maxV subject ((linkF subject).take maxLinks) V1 Qr E
            wikiRun linkF maxV maxLinks fuel r.2.1 r.1 r.2.2 (X ++ [subject])

lemma wikiInner_grows (maxV : Nat) (s : α) :
    ∀ (links V Q : List α) (E : List (α × α)),
      ∃ tV tQ tE, (wikiInner maxV s links V Q E).1 = V ++ tV ∧
        (wikiInner maxV s links V Q E).2.1 = Q ++ tQ ∧
        (wikiInner maxV s links V Q E).2.2 = E ++ tE := by
  intro links
  induction links with
  | nil => intro V Q E; exact ⟨[], [], [], by simp [wikiInner]⟩
  | cons l links ih =>
      intro V Q E
      by_cases hlen : V.length < maxV
      · by_cases hl : l ∈ V
        · simp only [wikiInner, if_pos hlen, if_pos hl]
          obtain ⟨tV, tQ, tE, h1, h2, h3⟩ := ih V Q (E ++ [(s, l)])
          exact ⟨tV, tQ, (s, l) :: tE, by simpa using h1, by simpa using h2,
            by simpa using h3⟩
        · simp only [wikiInner, if_pos hlen, if_neg hl]
          obtain ⟨tV, tQ, tE, h1, h2, h3⟩ := ih (V ++ [l]) (Q ++ [l]) (E ++ [(s, l)])
          exact ⟨l :: tV, l :: tQ, (s, l) :: tE, by simpa using h1,
            by simpa using h2, by simpa using h3⟩
      · simp only [wikiInner, if_neg hlen]
        exact ⟨[], [], [], by simp⟩

lemma wikiInner_len (maxV : Nat) (s : α) :
    ∀ (links V Q : List α) (E : List (α × α)), V.length ≤ maxV →
      (wikiInner maxV s links V Q E).1.length ≤ maxV := by
  intro links
  induction links with
  | nil => intro V Q E h; exact h
  | cons l links ih =>
      intro V Q E h
      by_cases hlen : V.length < maxV
      · by_cases hl : l ∈ V
        · simp only [wikiInner, if_pos hlen, if_pos hl]
          exact ih _ _ _ h
        · simp only [wikiInner, if_pos hlen, if_neg hl]
          refine ih _ _ _ ?_
          simp only [List.length_append, List.length_singleton]
          omega
      · simp only [wikiInner, if_neg hlen]
        exact h

lemma wikiInner_endpoints (maxV : Nat) (s : α) :
    ∀ (links V Q : List α) (E : List (α × α)), s ∈ V →
      (∀ p ∈ E, p.1 ∈ V ∧ p.2 ∈ V) →
      ∀ p ∈ (wikiInner maxV s links V Q E).2.2,
        p.1 ∈ (wikiInner maxV s links V Q E).1 ∧
          p.2 ∈ (wikiInner maxV s links V Q E).1 := by
  intro links
  induction links with
  | nil => intro V Q E _ hE; exact hE
  | cons l links ih =>
      intro V Q E hs hE
      by_cases hlen : V.length < maxV
      · by_cases hl : l ∈ V
        · simp only [wikiInner, if_pos hlen, if_pos hl]
          refine ih _ _ _ hs ?_
          intro p hp
          rcases List.mem_append.mp hp with hp | hp
          · exact hE p hp
          · rw [List.mem_singleton] at hp
            subst hp
            exact ⟨hs, hl⟩
        · simp only [wikiInner, if_pos hlen, if_neg hl]
          refine ih _ _ _ (List.mem_append_left _ hs) ?_
          intro p hp
          rcases List.mem_append.mp hp with hp | hp
          · obtain ⟨h1, h2⟩ := hE p hp
            exact ⟨List.mem_append_left _ h1, List.mem_append_left _ h2⟩
          · rw [List.mem_singleton] at hp
            subst hp
            exact ⟨List.mem_append_left _ hs, List.mem_append_right _ (by simp)⟩
      · simp only [wikiInner, if_neg hlen]
        exact hE

lemma nodup_append_one {Q : List α} {l : α} (h1 : Q.Nodup) (h2 : l ∉ Q) :
    (Q ++ [l]).Nodup := by
  rw [List.nodup_append]
  refine ⟨h1, List.nodup_singleton l, ?_⟩
  intro a ha hb
  rw [List.mem_singleton] at hb
  subst hb
  exact h2 ha

lemma wikiInner_queue (maxV : Nat) (s : α) :
    ∀ (links V Q : List α) (E : List (α × α)),
      (∀ x ∈ Q, x ∈ V) → Q.Nodup →
      (∀ x ∈ (wikiInner maxV s links V Q E).2.1,
          x ∈ (wikiInner maxV s links V Q E).1) ∧
        (wikiInner maxV s links V Q E).2.1.Nodup := by
  intro links
  induction links with
  | nil => intro V Q E h1 h2; exact ⟨h1, h2⟩
  | cons l links ih =>
      intro V Q E h1 h2
      by_cases hlen : V.length < maxV
      · by_cases hl : l ∈ V
        · simp only [wikiInner, if_pos hlen, if_pos hl]
          exact ih _ _ _ h1 h2
        · simp only [wikiInner, if_pos hlen, if_neg hl]
          refine ih _ _ _ ?_ ?_
          · intro x hx
            rcases List.mem_append.mp hx with hx | hx
            · exact List.mem_append_left _ (h1 x hx)
            · exact List.mem_append_right _ hx
          · exact nodup_append_one h2 (fun hc => hl (h1 l hc))
      · simp only [wikiInner, if_neg hlen]
        exact ⟨h1, h2⟩

lemma wikiInner_count (maxV : Nat) (s : α) :
    ∀ (links V Q : List α) (E : List (α × α)),
      (wikiInner maxV s links V Q E).1.length + Q.length =
        V.length + (wikiInner maxV s links V Q E).2.1.length := by
  intro links
  induction links with
  | nil => intro V Q E; simp [wikiInner]
  | cons l links ih =>
      intro V Q E
      by_cases hlen : V.length < maxV
      · by_cases hl : l ∈ V
        · simp only [wikiInner, if_pos hlen, if_pos hl]
          exact ih _ _ _
        · simp only [wikiInner, if_pos hlen, if_neg hl]
          have := ih (V ++ [l]) (Q ++ [l]) (E ++ [(s, l)])
          simp only [List.length_append, List.length_singleton] at this ⊢
          omega
      · simp only [wikiInner, if_neg hlen]

lemma wikiInner_queue_new (maxV : Nat) (s : α) :
    ∀ (links V Q : List α) (E : List (α × α)),
      ∀ x ∈ (wikiInner maxV s links V Q E).2.1, x ∈ Q ∨ x ∉ V := by
  intro links
  induction links with
  | nil => intro V Q E x hx; exact Or.inl hx
  | cons l links ih =>
      intro V Q E x hx
      by_cases hlen : V.length < maxV
      · by_cases hl : l ∈ V
        · simp only [wikiInner, if_pos hlen, if_pos hl] at hx
          exact ih _ _ _ x hx
        · simp only [wikiInner, if_pos hlen, if_neg hl] at hx
          rcases ih _ _ _ x hx with hx1 | hx1
          · rcases List.mem_append.mp hx1 with hx2 | hx2
            · exact Or.inl hx2
            · rw [List.mem_singleton] at hx2
              subst hx2
              exact Or.inr hl
          · refine Or.inr (fun hc => hx1 (List.mem_append_left _ hc))
      · simp only [wikiInner, if_neg hlen] at hx
        exact Or.inl hx

lemma wikiRun_invariant (linkF : α → List α) (maxV maxLinks : Nat) :
    ∀ (fuel : Nat) (Q V : List α) (E : List (α × α)) (X : List α)
      (r : BfsResult α),
      V.length ≤ maxV → (∀ p ∈ E, p.1 ∈ V ∧ p.2 ∈ V) →
      wikiRun linkF maxV maxLinks fuel Q V E X = some r →
      r.vertices.length ≤ maxV ∧
        ∀ p ∈ r.edges, p.1 ∈ r.vertices ∧ p.2 ∈ r.vertices := by
  intro fuel
  induction fuel with
  | zero =>
      intro Q V E X r hV hE hr
      by_cases hc : Q = [] ∨ maxV ≤ V.length
      · simp only [wikiRun, if_pos hc] at hr
        obtain rfl := Option.some.inj hr
        exact ⟨hV, hE⟩
      · simp only [wikiRun, if_neg hc] at hr
        exact absurd hr (by simp)
  | succ fuel ih =>
      intro Q V E X r hV hE hr
      cases Q with
      | nil =>
          simp only [wikiRun] at hr
          obtain rfl := Option.some.inj hr
          exact ⟨hV, hE⟩
      | cons s Qr =>
          simp only [wikiRun] at hr
          by_cases hb : maxV ≤ V.length
          · rw [if_pos hb] at hr
            obtain rfl := Option.some.inj hr
            exact ⟨hV, hE⟩
          · rw [if_neg hb] at hr
            set V1 := if s ∈ V then V else V ++ [s] with hV1
            have hsV1 : s ∈ V1 := by
              rw [hV1]
              split
              · assumption
              · exact List.mem_append_right _ (by simp)
            have hVsub : ∀ x ∈ V, x ∈ V1 := by
              intro x hx
              rw [hV1]
              split
              · exact hx
              · exact List.mem_append_left _ hx
            have hV1len : V1.length ≤ maxV := by
              rw [hV1]
              split
              · exact hV
              · simp only [List.length_append, List.length_singleton]
                omega
            have hE1 : ∀ p ∈ E, p.1 ∈ V1 ∧ p.2 ∈ V1 := by
              intro p hp
              obtain ⟨h1, h2⟩ := hE p hp
              exact ⟨hVsub _ h1, hVsub _ h2⟩
            exact ih _ _ _ _ _
              (wikiInner_len maxV s ((linkF s).take maxLinks) V1 Qr E hV1len)
              (wikiInner_endpoints maxV s ((linkF s).take maxLinks) V1 Qr E
                hsV1 hE1) hr

/-- C2 (amended): every completed per-language BFS crawl of
`wiki_scrapper.build_graph` with a positive vertex budget returns at most
`maxVertices` vertices, and both endpoints of every recorded red edge are
members of the returned vertex set.  (`scrapper.get_connections` guarantees
only the size bound: it can record an edge to a sampled but never-visited
link.) -/
theorem wiki_crawl_bounds (linkF : α → List α) (maxV maxLinks fuel : Nat)
    (start : α) (hpos : 0 < maxV) (r : BfsResult α)
    (hr : wikiRun linkF maxV maxLinks fuel [start] [] [] [] = some r) :
    r.vertices.length ≤ maxV ∧
      ∀ p ∈ r.edges, p.1 ∈ r.vertices ∧ p.2 ∈ r.vertices :=
  wikiRun_invariant linkF maxV maxLinks fuel [start] [] [] [] r
    (by simp) (by simp) hr

lemma wikiRun_total (linkF : α → List α) (maxV maxLinks : Nat) :
    ∀ (fuel : Nat) (Q V : List α) (E : List (α × α)) (X : List α),
      (∀ x ∈ Q, x ∈ V) → Q.Nodup → X.Nodup → (∀ x ∈ Q, x ∉ X) →
      (∀ x ∈ X, x ∈ V) → V.length ≤ maxV →
      Q.length + (maxV - V.length) ≤ fuel →
      ∃ r, wikiRun linkF maxV maxLinks fuel Q V E X = some r ∧
        r.expanded.Nodup ∧
        r.expanded.length ≤ X.length + Q.length + (maxV - V.length) := by
  intro fuel
  induction fuel with
  | zero =>
      intro Q V E X hQV hQn hXn hQX hXV hVlen hfuel
      have hQ : Q = [] := by
        cases Q with
        | nil => rfl
        | cons a Q => simp only [List.length_cons] at hfuel; omega
      subst hQ
      refine ⟨⟨V, E, X⟩, ?_, hXn, by simp⟩
      simp [wikiRun]
  | succ fuel ih =>
      intro Q V E X hQV hQn hXn hQX hXV hVlen hfuel
      cases Q with
      | nil =>
          refine ⟨⟨V, E, X⟩, ?_, hXn, by simp⟩
          simp [wikiRun]
      | cons s Qr =>
          by_cases hb : maxV ≤ V.length
          · refine ⟨⟨V, E, X⟩, ?_, hXn, ?_⟩
            · simp [wikiRun, hb]
            · show X.length ≤ X.length + (s :: Qr).length + (maxV - V.length)
              omega
          · have hsV : s ∈ V := hQV s (List.mem_cons_self s Qr)
            have hQrV : ∀ x ∈ Qr, x ∈ V := fun x hx =>
              hQV x (List.mem_cons_of_mem s hx)
            have hQrn : Qr.Nodup := (List.nodup_cons.mp hQn).2
            have hsQr : s ∉ Qr := (List.nodup_cons.mp hQn).1
            have hstep : wikiRun linkF maxV maxLinks (fuel + 1) (s :: Qr) V E X =
                wikiRun linkF maxV maxLinks fuel
                  (wikiInner maxV s ((linkF s).take maxLinks) V Qr E).2.1
                  (wikiInner maxV s ((linkF s).take maxLinks) V Qr E).1
                  (wikiInner maxV s ((linkF s).take maxLinks) V Qr E).2.2
                  (X ++ [s]) := by
              simp [wikiRun, hb, hsV]
            obtain ⟨tV, tQ, tE, hgV, hgQ, hgE⟩ :=
              wikiInner_grows maxV s ((linkF s).take maxLinks) V Qr E
            have hWlen : (wikiInner maxV s ((linkF s).take maxLinks) V Qr E).1.length ≤
                maxV := wikiInner_len maxV s _ V Qr E hVlen
            have hVW : V.length ≤
                (wikiInner maxV s ((linkF s).take maxLinks) V Qr E).1.length := by
              rw [hgV]; simp
            have hcount := wikiInner_count maxV s ((linkF s).take maxLinks) V Qr E
            obtain ⟨hq1, hq2⟩ :=
              wikiInner_queue maxV s ((linkF s).take maxLinks) V Qr E hQrV hQrn
            have hnew := wikiInner_queue_new maxV s ((linkF s).take maxLinks) V Qr E
            have hXn' : (X ++ [s]).Nodup :=
              nodup_append_one hXn (hQX s (List.mem_cons_self s Qr))
            have hXV' : ∀ x ∈ X ++ [s],
                x ∈ (wikiInner maxV s ((linkF s).take maxLinks) V Qr E).1 := by
              intro x hx
              rw [hgV]
              rcases List.mem_append.mp hx with hx | hx
              · exact List.mem_append_left _ (hXV x hx)
              · rw [List.mem_singleton] at hx
                subst hx
                exact List.mem_append_left _ hsV
            have hQX' : ∀ x ∈ (wikiInner maxV s ((linkF s).take maxLinks) V Qr E).2.1,
                x ∉ X ++ [s] := by
              intro x hx hc
              rcases hnew x hx with hx1 | hx1
              · rcases List.mem_append.mp hc with hc1 | hc1
                · exact hQX x (List.mem_cons_of_mem s hx1) hc1
                · rw [List.mem_singleton] at hc1
                  subst hc1
                  exact hsQr hx1
              · rcases List.mem_append.mp hc with hc1 | hc1
                · exact hx1 (hXV x hc1)
                · rw [List.mem_singleton] at hc1
                  subst hc1
                  exact hx1 hsV
            simp only [List.length_cons] at hfuel
            have harith1 : ∀ A B C D : Nat, A + C = D + B → A ≤ maxV →
                D ≤ maxV → D ≤ A → C + 1 + (maxV - D) ≤ fuel + 1 →
                B + (maxV - A) ≤ fuel := by
              intro A B C D h1 h2 h3 h4 h5
              omega
            obtain ⟨r, hr, hrn, hrlen⟩ := ih
              (wikiInner maxV s ((linkF s).take maxLinks) V Qr E).2.1
              (wikiInner maxV s ((linkF s).take maxLinks) V Qr E).1
              (wikiInner maxV s ((linkF s).take maxLinks) V Qr E).2.2
              (X ++ [s]) hq1 hq2 hXn' hQX' hXV' hWlen
              (harith1 _ _ _ _ hcount hWlen hVlen hVW hfuel)
            refine ⟨r, ?_, hrn, ?_⟩
            · rw [hstep]; exact hr
            · simp only [List.length_append, List.length_singleton,
                List.length_cons] at hrlen ⊢
              have harith2 : ∀ A B C D F R : Nat, A + C = D + B → A ≤ maxV →
                  D ≤ maxV → D ≤ A → R ≤ F + 1 + B + (maxV - A) →
                  R ≤ F + (C + 1) + (maxV - D) := by
                intro A B C D F R h1 h2 h3 h4 h5
                omega
              exact harith2 _ _ _ _ _ _ hcount hWlen hVlen hVW hrlen

/-- C9 (amended): the per-language BFS of `wiki_scrapper.build_graph` never
expands the same identifier twice, and for every link function and positive
vertex budget it terminates within `maxVertices` expansions (fuel `maxVertices`
suffices and the expansion sequence is duplicate-free of length at most
`maxVertices`).  (`scrapper.get_connections` violates this: it re-enqueues
already-visited pages and can loop forever.) -/
theorem wiki_crawl_terminates (linkF : α → List α) (maxV maxLinks : Nat)
    (start : α) (hpos : 0 < maxV) :
    ∃ r, wikiRun linkF maxV maxLinks maxV [start] [] [] [] = some r ∧
      r.expanded.Nodup ∧ r.expanded.length ≤ maxV := by
  obtain ⟨f, rfl⟩ : ∃ f, maxV = f + 1 := ⟨maxV - 1, by omega⟩
  have hstep : wikiRun linkF (f + 1) maxLinks (f + 1) [start] [] [] [] =
      wikiRun linkF (f + 1) maxLinks f
        (wikiInner (f + 1) start ((linkF start).take maxLinks) [start] [] []).2.1
        (wikiInner (f + 1) start ((linkF start).take maxLinks) [start] [] []).1
        (wikiInner (f + 1) start ((linkF start).take maxLinks) [start] [] []).2.2
        [start] := by
    simp [wikiRun]
  obtain ⟨tV, tQ, tE, hgV, hgQ, hgE⟩ :=
    wikiInner_grows (f + 1) start ((linkF start).take maxLinks) [start] [] []
  have hsW : start ∈ (wikiInner (f + 1) start ((linkF start).take maxLinks)
      [start] [] []).1 := by
    rw [hgV]; exact List.mem_append_left _ (by simp)
  have hWlen : (wikiInner (f + 1) start ((linkF start).take maxLinks)
      [start] [] []).1.length ≤ f + 1 :=
    wikiInner_len (f + 1) start _ [start] [] [] (by simp)
  have hVW : 1 ≤ (wikiInner (f + 1) start ((linkF start).take maxLinks)
      [start] [] []).1.length := by
    rw [hgV]; simp
  have hcount := wikiInner_count (f + 1) start ((linkF start).take maxLinks)
    [start] [] []
  obtain ⟨hq1, hq2⟩ := wikiInner_queue (f + 1) start ((linkF start).take maxLinks)
    [start] [] [] (by simp) (by simp)
  have hnew := wikiInner_queue_new (f + 1) start ((linkF start).take maxLinks)
    [start] [] []
  have hQX : ∀ x ∈ (wikiInner (f + 1) start ((linkF start).take maxLinks)
      [start] [] []).2.1, x ∉ [start] := by
    intro x hx hc
    rw [List.mem_singleton] at hc
    subst hc
    rcases hnew x hx with hx1 | hx1
    · simp at hx1
    · exact hx1 (by simp)
  have hXV : ∀ x ∈ ([start] : List α),
      x ∈ (wikiInner (f + 1) start ((linkF start).take maxLinks) [start] [] []).1 := by
    intro x hx
    rw [List.mem_singleton] at hx
    subst hx
    exact hsW
  have harith1 : ∀ A B : Nat, A + ([] : List α).length = [start].length + B →
      A ≤ f + 1 → 1 ≤ A → B + (f + 1 - A) ≤ f := by
    intro A B h1 h2 h3
    simp only [List.length_nil, List.length_singleton] at h1
    omega
  obtain ⟨r, hr, hrn, hrlen⟩ := wikiRun_total linkF (f + 1) maxLinks f
    (wikiInner (f + 1) start ((linkF start).take maxLinks) [start] [] []).2.1
    (wikiInner (f + 1) start ((linkF start).take maxLinks) [start] [] []).1
    (wikiInner (f + 1) start ((linkF start).take maxLinks) [start] [] []).2.2
    [start] hq1 hq2 (by simp) hQX hXV hWlen (harith1 _ _ hcount hWlen hVW)
  refine ⟨r, ?_, hrn, ?_⟩
  · rw [hstep]; exact hr
  · have harith2 : ∀ A B R : Nat, A + ([] : List α).length = [start].length + B →
        A ≤ f + 1 → 1 ≤ A → R ≤ [start].length + B + (f + 1 - A) → R ≤ f + 1 := by
      intro A B R h1 h2 h3 h4
      simp only [List.length_nil, List.length_singleton] at h1 h4
      omega
    exact harith2 _ _ _ hcount hWlen hVW hrlen

/-- Result of a run of `get_connections` (scrapper.py 14-57): the visited set,
the recorded connections, the sequence of frontier expansions, and whether the
loop finished (`completed = false` means the fuel ran out while the loop guard
still held — the crawl had not terminated yet). -/
structure CrawlResult (α : Type) where
  visited : List α
  conns : List (α × α)
  expanded : List α
  completed : Bool
deriving DecidableEq

/-- The BFS loop of `get_connections` (scrapper.py 34-57): dequeue a page, add
it to `visited` (set semantics), filter self-links from its links, randomly
sample down to the remaining budget when the links overflow it, then record a
connection for every kept link and enqueue it — with no visited check.
`sample` models `random.sample`, `linkF` the extracted link titles after the
`BAD_CHARS` filter. -/
def getConnAux (linkF : α → List α) (sample : List α → Nat → List α)
    (maxP : Nat) :
    Nat → List α → List α → List (α × α) → List α → CrawlResult α
  | 0, Q, visited, conns, X =>
      if Q = [] ∨ maxP ≤ visited.length then ⟨visited, conns, X, true⟩
      else ⟨visited, conns, X, false⟩
  | fuel + 1, Q, visited, conns, X =>
      match Q with
      | [] => ⟨visited, conns, X, true⟩
      | page :: Qr =>
          if maxP ≤ visited.length then ⟨visited, conns, X, true⟩
          else
            let visited1 := if page ∈ visited then visited else visited ++ [page]
            let links0 := (linkF page).filter (fun l => decide (¬ l = page))
            let links := if maxP - visited1.length < links0.length
              then sample links0 (maxP - visited1.length) else links0
            getConnAux linkF sample maxP fuel (Qr ++ links) visited1
              (conns ++ links.map (fun l => (page, l))) (X ++ [page])

/-- `get_connections(starting_point, max_pages, lang)` (scrapper.py 14-57). -/
def getConnections (linkF : α → List α) (sample : List α → Nat → List α)
    (start : α) (maxP fuel : Nat) : CrawlResult α :=
  getConnAux linkF sample maxP fuel [start] [] [] []

/-- A concrete link function: page 0 links to 1 and 2, page 1 links to 3 and
4, every other page has no links. -/
def cexLinkF : Nat → List Nat
  | 0 => [1, 2]
  | 1 => [3, 4]
  | _ => []

/-- Counterexample for C2 as stated: with `maxVertices = 3`, the completed
`get_connections` crawl from page 0 (one possible `random.sample` outcome
keeping the prefix) records the red edge `(1, 3)` although page 3 was sampled
into the queue but never visited, so an edge endpoint lies outside the
returned vertex set. -/
theorem crawl_endpoint_cex :
    (getConnections cexLinkF (fun l k => l.take k) 0 3 10).completed = true ∧
      (1, 3) ∈ (getConnections cexLinkF (fun l k => l.take k) 0 3 10).conns ∧
      3 ∉ (getConnections cexLinkF (fun l k => l.take k) 0 3 10).visited := by
  decide

/-- Witness for the amended C2 at a concrete link function: the completed
`wiki_scrapper` crawl from page 0 with budget 3 returns 3 vertices and edges
inside the vertex set. -/
theorem wiki_crawl_bounds_witness :
    ((0 : Nat) < 3 ∧
        wikiRun cexLinkF 3 5 10 [0] [] [] [] =
          some (BfsResult.mk [0, 1, 2] [(0, 1), (0, 2)] [0])) ∧
      ((BfsResult.mk [0, 1, 2] [(0, 1), (0, 2)] [0]).vertices.length ≤ 3 ∧
        ∀ p ∈ (BfsResult.mk ([0, 1, 2] : List Nat) [(0, 1), (0, 2)] [0]).edges,
          p.1 ∈ (BfsResult.mk ([0, 1, 2] : List Nat) [(0, 1), (0, 2)] [0]).vertices ∧
            p.2 ∈ (BfsResult.mk ([0, 1, 2] : List Nat) [(0, 1), (0, 2)] [0]).vertices) :=
  ⟨⟨by decide, by decide⟩,
    wiki_crawl_bounds cexLinkF 3 5 10 0 (by decide) _ (by decide)⟩

/-- A concrete link function with a two-page cycle: 0 links to 1 and 1 links
back to 0. -/
def loopLinkF : Nat → List Nat
  | 0 => [1]
  | 1 => [0]
  | _ => []

/-- Counterexample for C9 as stated: `get_connections` (scrapper.py 34-57)
enqueues links without checking `visited`, so on the two-page cycle with
`maxVertices = 5` it expands page 0 again (the expansion sequence
`[0, 1, 0, 1, 0]` has duplicates) and after `maxVertices` expansions the loop
guard still holds — the crawl has not terminated. -/
theorem crawl_revisit_cex :
    ¬ (getConnections loopLinkF (fun l k => l.take k) 0 5 5).expanded.Nodup ∧
      (getConnections loopLinkF (fun l k => l.take k) 0 5 5).completed = false := by
  decide

/-- Witness for the amended C9 at a concrete link function and budget. -/
theorem wiki_crawl_terminates_witness :
    (0 : Nat) < 2 ∧
      ∃ r, wikiRun loopLinkF 2 5 2 [0] [] [] [] = some r ∧
        r.expanded.Nodup ∧ r.expanded.length ≤ 2 :=
  ⟨by decide, wiki_crawl_terminates loopLinkF 2 5 0 (by decide)⟩

variable {L : Type} [DecidableEq L]

/-- `G.add_node(v, lang=lang, color=...)` (scrapper.py 132-134): insert the
node, or overwrite the attributes of an existing node.  Only the `lang`
attribute is tracked (`none` = no language attribute); the display color set
alongside it is derived from the RNG and carries no information the claims
mention. -/
def addNode : List (α × Option L) → α → L → List (α × Option L)
  | [], v, lang => [(v, some lang)]
  | x :: ns, v, lang =>
      if x.1 = v then (v, some lang) :: ns else x :: addNode ns v lang

/-- The node side effect of `G.add_edge(a, b, ...)`: networkx silently creates
a missing endpoint node with an empty attribute dictionary. -/
def touchNode (ns : List (α × Option L)) (u : α) : List (α × Option L) :=
  if ns.any (fun x => decide (x.1 = u)) then ns else ns ++ [(u, none)]

/-- Node bookkeeping of `scrapper.build_graph` (scrapper.py 124-142): nodes
added per language from `subjects` with their `lang` attribute, then the nodes
silently created by inserting the red (connection) edges, then by the blue
(match) edges. -/
def buildNodes (subjects : List (L × List α))
    (connections matchEdges : List (α × α)) : List (α × Option L) :=
  let n1 := subjects.foldl
    (fun ns p => p.2.foldl (fun ns u => addNode ns u p.1) ns) []
  let n2 := connections.foldl (fun ns e => touchNode (touchNode ns e.1) e.2) n1
  matchEdges.foldl (fun ns e => touchNode (touchNode ns e.1) e.2) n2

/-- The language attribute of vertex `v`: `none` = vertex absent,
`some none` = vertex present without a language attribute, `some (some l)` =
vertex present with language `l`. -/
def nodeLang (ns : List (α × Option L)) (v : α) : Option (Option L) :=
  (ns.find? (fun x => decide (x.1 = v))).map Prod.snd

lemma nodeLang_cons_pos {x : α × Option L} {ns : List (α × Option L)} {v : α}
    (h : x.1 = v) : nodeLang (x :: ns) v = some x.2 := by
  simp [nodeLang, List.find?_cons_of_pos, h]

lemma nodeLang_cons_neg {x : α × Option L} {ns : List (α × Option L)} {v : α}
    (h : ¬ x.1 = v) : nodeLang (x :: ns) v = nodeLang ns v := by
  simp [nodeLang, List.find?_cons_of_neg, h]

lemma nodeLang_addNode_self {ns : List (α × Option L)} {v : α} {lang : L} :
    nodeLang (addNode ns v lang) v = some (some lang) := by
  induction ns with
  | nil => exact nodeLang_cons_pos rfl
  | cons x ns ih =>
      by_cases hx : x.1 = v
      · simp only [addNode, if_pos hx]
        exact nodeLang_cons_pos rfl
      · simp only [addNode, if_neg hx]
        rw [nodeLang_cons_neg hx]
        exact ih

lemma nodeLang_addNode_other {ns : List (α × Option L)} {v' v : α} {lang : L}
    (h : v' ≠ v) : nodeLang (addNode ns v' lang) v = nodeLang ns v := by
  induction ns with
  | nil => exact nodeLang_cons_neg h
  | cons x ns ih =>
      by_cases hx : x.1 = v'
      · simp only [addNode, if_pos hx]
        have h1 : nodeLang ((v', (some lang : Option L)) :: ns) v = nodeLang ns v :=
          nodeLang_cons_neg h
        have h2 : nodeLang (x :: ns) v = nodeLang ns v :=
          nodeLang_cons_neg (fun hc => h (hx ▸ hc))
        rw [h1, h2]
      · simp only [addNode, if_neg hx]
        by_cases hm : x.1 = v
        · rw [nodeLang_cons_pos hm, nodeLang_cons_pos hm]
        · rw [nodeLang_cons_neg hm, nodeLang_cons_neg hm]
          exact ih

lemma find?_append_some {β : Type} {p : β → Bool} {l t : List β} {x : β}
    (h : l.find? p = some x) : (l ++ t).find? p = some x := by
  induction l with
  | nil => simp [List.find?] at h
  | cons a l ih =>
      rw [List.cons_append]
      cases hp : p a
      · rw [List.find?_cons_of_neg _ (by simp [hp])] at h
        rw [List.find?_cons_of_neg _ (by simp [hp])]
        exact ih h
      · rw [List.find?_cons_of_pos _ hp] at h
        rw [List.find?_cons_of_pos _ hp]
        exact h

lemma nodeLang_touchNode {ns : List (α × Option L)} {u v : α} {o : Option L}
    (h : nodeLang ns v = some o) : nodeLang (touchNode ns u) v = some o := by
  unfold touchNode
  split
  · exact h
  · unfold nodeLang at h ⊢
    obtain ⟨x, hx, hx2⟩ := Option.map_eq_some'.mp h
    rw [find?_append_some hx]
    simp [hx2]

lemma nodeLang_addFold (l0 : L) {v : α} :
    ∀ (us : List α) (ns : List (α × Option L)),
      (v ∈ us ∨ nodeLang ns v = some (some l0)) →
      nodeLang (us.foldl (fun ns u => addNode ns u l0) ns) v = some (some l0) := by
  intro us
  induction us with
  | nil =>
      intro ns h
      rcases h with h | h
      · exact absurd h (List.not_mem_nil v)
      · exact h
  | cons u us ih =>
      intro ns h
      rw [List.foldl_cons]
      by_cases hu : u = v
      · subst hu
        exact ih _ (Or.inr nodeLang_addNode_self)
      · rcases h with h | h
        · rcases List.mem_cons.mp h with h1 | h1
          · exact absurd h1.symm hu
          · exact ih _ (Or.inl h1)
        · refine ih _ (Or.inr ?_)
          rw [nodeLang_addNode_other hu]
          exact h

lemma nodeLang_addFold_other {v : α} {l0 : L} :
    ∀ (us : List α) (ns : List (α × Option L)), v ∉ us →
      nodeLang (us.foldl (fun ns u => addNode ns u l0) ns) v = nodeLang ns v := by
  intro us
  induction us with
  | nil => intro ns _; rfl
  | cons u us ih =>
      intro ns h
      rw [List.foldl_cons]
      have hu : u ≠ v := fun hc => h (hc ▸ List.mem_cons_self u us)
      rw [ih _ (fun hc => h (List.mem_cons_of_mem u hc))]
      exact nodeLang_addNode_other hu

lemma nodeLang_subjectsFold_stable {v : α} {lang : L} :
    ∀ (subjects : List (L × List α)) (ns : List (α × Option L)),
      nodeLang ns v = some (some lang) →
      (∀ p ∈ subjects, v ∈ p.2 → p.1 = lang) →
      nodeLang (subjects.foldl
          (fun ns p => p.2.foldl (fun ns u => addNode ns u p.1) ns) ns) v =
        some (some lang) := by
  intro subjects
  induction subjects with
  | nil => intro ns h _; exact h
  | cons q subjects ih =>
      intro ns h huniq
      rw [List.foldl_cons]
      refine ih _ ?_ (fun p hp => huniq p (List.mem_cons_of_mem q hp))
      by_cases hvq : v ∈ q.2
      · have hq : q.1 = lang := huniq q (List.mem_cons_self q subjects) hvq
        rw [hq]
        exact nodeLang_addFold lang q.2 ns (Or.inl hvq)
      · rw [nodeLang_addFold_other q.2 ns hvq]
        exact h

lemma nodeLang_subjectsFold {v : α} {lang : L} :
    ∀ (subjects : List (L × List α)) (ns : List (α × Option L)),
      (∃ p ∈ subjects, p.1 = lang ∧ v ∈ p.2) →
      (∀ p ∈ subjects, v ∈ p.2 → p.1 = lang) →
      nodeLang (subjects.foldl
          (fun ns p => p.2.foldl (fun ns u => addNode ns u p.1) ns) ns) v =
        some (some lang) := by
  intro subjects
  induction subjects with
  | nil =>
      intro ns h _
      obtain ⟨p, hp, -⟩ := h
      exact absurd hp (List.not_mem_nil p)
  | cons q subjects ih =>
      intro ns hex huniq
      by_cases hvq : v ∈ q.2
      · have hq : q.1 = lang := huniq q (List.mem_cons_self q subjects) hvq
        rw [List.foldl_cons]
        refine nodeLang_subjectsFold_stable subjects _ ?_
          (fun p hp => huniq p (List.mem_cons_of_mem q hp))
        rw [hq]
        exact nodeLang_addFold lang q.2 ns (Or.inl hvq)
      · rw [List.foldl_cons]
        refine ih _ ?_ (fun p hp => huniq p (List.mem_cons_of_mem q hp))
        obtain ⟨p, hp, hp1, hp2⟩ := hex
        rcases List.mem_cons.mp hp with h1 | h1
        · subst h1
          exact absurd hp2 hvq
        · exact ⟨p, h1, hp1, hp2⟩

lemma nodeLang_touchFold {v : α} {o : Option L} :
    ∀ (es : List (α × α)) (ns : List (α × Option L)),
      nodeLang ns v = some o →
      nodeLang (es.foldl (fun ns e => touchNode (touchNode ns e.1) e.2) ns) v =
        some o := by
  intro es
  induction es with
  | nil => intro ns h; exact h
  | cons e es ih =>
      intro ns h
      rw [List.foldl_cons]
      exact ih _ (nodeLang_touchNode (nodeLang_touchNode h))

/-- C10 (amended): in `scrapper.build_graph` every vertex that belongs to the
crawled vertex set of exactly one language carries a language attribute equal
to that crawl's language; a vertex that enters the graph only as a red-edge
endpoint (possible because `get_connections` records edges to unvisited
links) is present without any language attribute. -/
theorem assembled_lang_attr (subjects : List (L × List α))
    (connections matchEdges : List (α × α)) (v : α) (lang : L)
    (hmem : ∃ p ∈ subjects, p.1 = lang ∧ v ∈ p.2)
    (huniq : ∀ p ∈ subjects, v ∈ p.2 → p.1 = lang) :
    nodeLang (buildNodes subjects connections matchEdges) v = some (some lang) := by
  simp only [buildNodes]
  exact nodeLang_touchFold matchEdges _ (nodeLang_touchFold connections _
    (nodeLang_subjectsFold subjects [] hmem huniq))

/-- Counterexample for C10 as stated: composing the completed
`get_connections` crawl from the C2 counterexample with `scrapper.build_graph`
puts page 3 into the graph as a red-edge endpoint only, so vertex 3 is present
with no language attribute at all. -/
theorem assembled_lang_attr_cex :
    (getConnections cexLinkF (fun l k => l.take k) 0 3 10).completed = true ∧
      nodeLang (buildNodes
          [(("en" : String), (getConnections cexLinkF (fun l k => l.take k) 0 3 10).visited)]
          (getConnections cexLinkF (fun l k => l.take k) 0 3 10).conns [])
        3 = some none := by
  decide

/-- Witness for the amended C10 at a concrete crawl result. -/
theorem assembled_lang_attr_witness :
    ((∃ p ∈ [(("en" : String), ([0, 1] : List Nat))], p.1 = "en" ∧ 0 ∈ p.2) ∧
        (∀ p ∈ [(("en" : String), ([0, 1] : List Nat))], 0 ∈ p.2 → p.1 = "en")) ∧
      nodeLang (buildNodes [(("en" : String), ([0, 1] : List Nat))] [(1, 3)] [])
        0 = some (some "en") :=
  ⟨⟨by decide, by decide⟩,
    assembled_lang_attr [("en", [0, 1])] [(1, 3)] [] 0 "en" (by decide)
      (by decide)⟩

end WikiScrapper
